import Mathlib

/-!
Verification development for the MusicXML note-pattern matcher
(`src/index.js`, middle snapshot, lines 423-909: `getNote`, `noteIsEqual`,
`staffVoiceIsEqual`, `getElementIndex`, `isNotRest`, `arrayIncludesCount`,
`findPattern`).

Shallow embedding notes:
* The DOM accessors `getUniqueElement` / `getUniqueString` /
  `getUniqueInteger` are absorbed into the document model: each element
  field below stores exactly what the corresponding `getUnique*` call
  returns (`none` when the tag is absent or not unique).  Text contents of
  `staff` / `voice` / `alter` / `octave` elements are modelled as their
  parsed integer values (canonical decimal text, as MusicXML produces).
* JS `staff`/`voice` values are modelled as naturals; documents whose
  `staff` or `voice` elements carry the value `0` are outside the model
  (a `PartWF` hypothesis marks the theorems that rely on this).
* A thrown JS `TypeError` (a note element without a unique `pitch` child)
  is modelled as `Except.error ()`.  The mutable module-global
  `staffVoicesNumbers` array is threaded explicitly as a `Table` value;
  `findPattern` below runs from the page-load state `Table.init`.
* The engine's `Array.prototype.sort` with the comparator `(a, b) => a - b`
  is modelled as an insertion sort in which an `undefined` entry compares
  as not-less than anything (the comparator returns `NaN` there, which
  engines treat as `0`).
* The approximate-match test `matchingCount / pattern.length > 0.6` is an
  IEEE double comparison in JS; for `pattern.length < 2 ^ 50` it is exactly
  equivalent to `3 * pattern.length < 5 * matchingCount` (and for length 0
  the JS division yields `NaN`, so the test is false, matching `0 < 0`).
  It is modelled by that integer comparison.
-/

namespace NotePattern

/-- The pitch content compared by `noteIsEqual`: the `step` string and the
`alter` value, each `none` when the corresponding tag is absent (JS
`undefined`; note `undefined === undefined` is `true`, so two absent
alters are equal, and an absent alter differs from every present one).
Pattern entries and `getNote` results share this shape. -/
structure PN where
  step : Option String
  alter : Option Int
  deriving DecidableEq, Inhabited, Repr

/-- Content of a unique `pitch` element: what `getUniqueString`/`getUniqueInteger`
return for its `step`, `alter` and `octave` children. -/
structure PitchData where
  step : Option String
  alter : Option Int
  octave : Option Int
  deriving DecidableEq, Inhabited, Repr

/-- A `note` element: whether it has a `rest` child, its unique `pitch`
child (if any), and the values of its unique `staff` and `voice` children. -/
structure NoteElem where
  rest : Bool
  pitch : Option PitchData
  staff : Option Nat
  voice : Option Nat
  deriving DecidableEq, Inhabited, Repr

/-- A `measure` element: its `number` attribute and its `note` children in
document order. -/
structure Measure where
  number : Int
  notes : List NoteElem
  deriving DecidableEq, Inhabited, Repr

/-- A `part` element: the value of its unique `staves` declaration (if any)
and its `measure` children in document order. -/
structure Part where
  staves : Option Nat
  measures : List Measure
  deriving DecidableEq, Inhabited, Repr

/-- A document: its `part` elements in document order. -/
abbrev Doc := List Part

/-- A reference to a note element inside a part: measure index and index of
the note within the measure (this models DOM element identity). -/
structure NRef where
  m : Nat
  n : Nat
  deriving DecidableEq, Inhabited, Repr

/-- The note element a reference points at. -/
def noteAt (part : Part) (r : NRef) : NoteElem :=
  (((part.measures.get? r.m).map Measure.notes).getD []).getD r.n default

/-- The note elements of a part in document order
(`partElement.getElementsByTagName("note")`), as references. -/
def partRefs (part : Part) : List NRef :=
  (List.range part.measures.length).flatMap fun mi =>
    (List.range (((part.measures.get? mi).map (·.notes.length)).getD 0)).map
      fun ni => ⟨mi, ni⟩

/-- `isNotRest`: the note element has no `rest` child. -/
def isNotRest (e : NoteElem) : Bool := !e.rest

/-- JS `x ? x : 1` on an optional integer (`0` is falsy, hence replaced by 1). -/
def jsDefaultPos (o : Option Nat) : Nat :=
  match o with
  | some s => if s = 0 then 1 else s
  | none => 1

/-- JS `x || 1` on an optional integer. -/
def jsOr1 (o : Option Nat) : Nat :=
  match o with
  | some s => if s = 0 then 1 else s
  | none => 1

/-- JS `Array.prototype.indexOf`: the index of the first strictly-equal
element, `-1` when absent. -/
def jsIndexOf {α : Type} [BEq α] (l : List α) (a : α) : Int :=
  if l.contains a then (l.indexOf a : Int) else -1

/-- JS sparse-array assignment `arr[i] = a` on an array modelled as a list
of optional slots (a `none` slot is a hole). -/
def setIdx {α : Type} : List (Option α) → Nat → α → List (Option α)
  | [], 0, a => [some a]
  | [], i + 1, a => none :: setIdx [] i a
  | _ :: xs, 0, a => some a :: xs
  | x :: xs, i + 1, a => x :: setIdx xs i a

/-- JS sparse-array read `arr[i]` (`undefined` for holes and out of range). -/
def readIdx {α : Type} (l : List (Option α)) (i : Nat) : Option α :=
  (l.get? i).getD none

/-- Comparator model for `(a, b) => a - b` on possibly-undefined entries:
`true` iff both are numbers and the first is smaller (a `NaN` comparator
result is treated as `0`, i.e. not-less). -/
def voiceLt : Option Nat → Option Nat → Bool
  | some a, some b => a < b
  | _, _ => false

/-- Insertion step for the engine-sort model. -/
def insertVoice (v : Option Nat) : List (Option Nat) → List (Option Nat)
  | [] => [v]
  | w :: ws => if voiceLt v w then v :: w :: ws else w :: insertVoice v ws

/-- Model of `voices.sort((a, b) => a - b)`. -/
def sortVoices : List (Option Nat) → List (Option Nat)
  | [] => []
  | v :: vs => insertVoice v (sortVoices vs)

/-- The module-global `staffVoicesNumbers` array: indexed slots keyed by
`staff - 1`, plus the property the JS code creates under the key `NaN`
when a note has no `staff` element (that property is skipped by
`Array.prototype.forEach`, hence never sorted). -/
structure Table where
  idx : List (Option (List (Option Nat)))
  nanB : Option (List (Option Nat))
  deriving DecidableEq, Inhabited, Repr

/-- The page-load state of `staffVoicesNumbers`. -/
def Table.init : Table := ⟨[], none⟩

/-- `staffVoicesNumbers[staff - 1]` (the `NaN` property when `staff` is absent). -/
def Table.read (t : Table) (st : Option Nat) : Option (List (Option Nat)) :=
  match st with
  | some s => readIdx t.idx (s - 1)
  | none => t.nanB

/-- `staffVoicesNumbers[staff - 1] = b`. -/
def Table.write (t : Table) (st : Option Nat) (b : List (Option Nat)) : Table :=
  match st with
  | some s => { t with idx := setIdx t.idx (s - 1) b }
  | none => { t with nanB := some b }

/-- `staffVoicesNumbers.forEach((voices) => voices.sort((a, b) => a - b))`:
sorts the indexed slots only. -/
def Table.sortAll (t : Table) : Table :=
  { t with idx := t.idx.map (Option.map sortVoices) }

/-- The `Note` object built by `getNote`. -/
structure Note where
  pn : PN
  octave : Option Int
  staff : Nat
  voice : Nat
  staffVoice : Int
  deriving DecidableEq, Inhabited, Repr

/-- `getNote` (src/index.js:501-526): registers the note's `voice` under its
`staff` in the global table, re-sorts every indexed slot, and builds the
`Note` object.  Accessing a missing unique `pitch` element throws a
`TypeError`, modelled as `Except.error ()` (the table mutations that JS
retains past the throw are not observable through any `.ok` result and are
dropped here). -/
def getNote (tbl : Table) (e : NoteElem) : Except Unit (Note × Table) :=
  let tbl1 :=
    match tbl.read e.staff with
    | some b =>
        if 0 < b.length && !(b.contains e.voice) then tbl.write e.staff (b ++ [e.voice])
        else tbl
    | none => tbl.write e.staff [e.voice]
  let tbl2 := tbl1.sortAll
  match e.pitch with
  | none => .error ()
  | some pd =>
      .ok ({ pn := ⟨pd.step, pd.alter⟩
             octave := pd.octave
             staff := jsDefaultPos e.staff
             voice := jsDefaultPos e.voice
             staffVoice := jsIndexOf ((tbl2.read e.staff).getD []) e.voice + 1 }, tbl2)

/-- `noteIsEqual` (src/index.js:534-535) on the pitch content both notes and
pattern entries carry: `step` and `alter` must both match (`undefined`
matching only `undefined`). -/
def noteIsEqual (n1 n2 : PN) : Bool :=
  n1.step == n2.step && n1.alter == n2.alter

/-- `staffVoiceIsEqual` (src/index.js:542-543). -/
def staffVoiceIsEqual (n1 n2 : Note) : Bool :=
  n1.staff == n2.staff && n1.voice == n2.voice

/-- Does sibling `q` of the measure's note list carry a `voice` element
whose text equals the decimal rendering of `v`? (the filter inside
`getElementIndex`). -/
def hasVoiceValue (ms : List NoteElem) (q : Nat) (v : Nat) : Bool :=
  ((ms.get? q).bind NoteElem.voice) == some v

/-- `getElementIndex` (src/index.js:552-562) for a note at position `p` of
its measure's note list, filtering siblings by voice value `v`:
`Array.from(parent.getElementsByTagName("note")).filter(...).indexOf(element)`. -/
def getElementIndex (ms : List NoteElem) (p : Nat) (v : Nat) : Int :=
  jsIndexOf ((List.range ms.length).filter fun q => hasVoiceValue ms q v) p

/-- `arrayIncludesCount` (src/index.js:577-587): `target.every` increments
`count` while each target element has some `compareCallback`-equal element
of `array`, stopping at the first failure; `array` elements are re-usable
across target entries. -/
def arrayIncludesCount {α : Type} (array target : List α) (cmp : α → α → Bool) : Nat :=
  match target with
  | [] => 0
  | v :: t' => if array.any fun s => cmp v s then 1 + arrayIncludesCount array t' cmp else 0

/-- Voice buckets of one staff inside the `staveNotes` grouping array:
indexed slots keyed by `voice - 1` plus the `NaN` property used when a
note has no `voice` element. -/
structure VB where
  buckets : List (Option (List NRef))
  nanB : Option (List NRef)
  deriving DecidableEq, Inhabited, Repr

/-- The `staveNotes` grouping array: indexed slots keyed by `staff - 1` plus
the `NaN` property used when a note has no `staff` element. -/
structure SA where
  staves : List (Option VB)
  nanS : Option VB
  deriving DecidableEq, Inhabited, Repr

/-- `staveNotes[staff - 1]`. -/
def SA.read (sa : SA) (st : Option Nat) : Option VB :=
  match st with
  | some s => readIdx sa.staves (s - 1)
  | none => sa.nanS

/-- `staveNotes[staff - 1] = vb`. -/
def SA.write (sa : SA) (st : Option Nat) (vb : VB) : SA :=
  match st with
  | some s => { sa with staves := setIdx sa.staves (s - 1) vb }
  | none => { sa with nanS := some vb }

/-- `staffNotes[voice - 1]`. -/
def VB.read (vb : VB) (v : Option Nat) : Option (List NRef) :=
  match v with
  | some n => readIdx vb.buckets (n - 1)
  | none => vb.nanB

/-- `staffNotes[voice - 1] = lst`. -/
def VB.write (vb : VB) (v : Option Nat) (lst : List NRef) : VB :=
  match v with
  | some n => { vb with buckets := setIdx vb.buckets (n - 1) lst }
  | none => { vb with nanB := some lst }

/-- One step of the multi-staff grouping loop (src/index.js:626-644): if the
staff slot exists, the note is pushed only when its voice bucket already
exists (otherwise it is silently dropped — the loop has no `else` creating
a new voice bucket in an existing staff); a fresh staff slot is created
with the note's voice as its only bucket. -/
def addNote (part : Part) (sa : SA) (r : NRef) : SA :=
  match sa.read (noteAt part r).staff with
  | some vb =>
      match vb.read (noteAt part r).voice with
      | some lst =>
        sa.write (noteAt part r).staff (vb.write (noteAt part r).voice (lst ++ [r]))
      | none => sa
  | none => sa.write (noteAt part r).staff (VB.write ⟨[], none⟩ (noteAt part r).voice [r])

/-- `partStaffCount` (src/index.js:614-615). -/
def staffCountVal (part : Part) : Nat := jsOr1 part.staves

/-- The `staveNotes` array after the grouping phase: for a multi-staff part
the fold of `addNote` over the part's non-rest notes, otherwise the single
pseudo-lane `staveNotes[0][0] = [...notes]` holding every note, rests
included (src/index.js:625-648). -/
def staveNotesOf (part : Part) : SA :=
  if staffCountVal part > 1 then
    ((partRefs part).filter fun r => isNotRest (noteAt part r)).foldl (addNote part) ⟨[], none⟩
  else
    ⟨[some ⟨[some (partRefs part)], none⟩], none⟩

/-- The voice lanes scanned by the matcher, in scan order:
`staveNotes.forEach(staffVoices => staffVoices.forEach(...))` visits the
indexed, present slots in ascending order and skips holes and the `NaN`
properties. -/
def lanesOf (part : Part) : List (List NRef) :=
  ((staveNotesOf part).staves.filterMap id).flatMap fun vb => vb.buckets.filterMap id

/-- `staffVoiceNotes[noteIndex + patternIndex]` (src/index.js:660). -/
def laneCandidate (lane : List NRef) (i j : Nat) : Option NRef :=
  lane.get? (i + j)

/-- One reported note of an occurrence (fields of the object pushed at
src/index.js:673-679). -/
structure NoteOcc where
  staff : Nat
  measure : Int
  measureNoteNumber : Int
  note : Note
  deriving DecidableEq, Inhabited, Repr

/-- The measure number attribute of the note's parent. -/
def measureNumberAt (part : Part) (r : NRef) : Int :=
  ((part.measures.get? r.m).map Measure.number).getD 0

/-- The note list of the note's parent measure. -/
def measureNotesAt (part : Part) (r : NRef) : List NoteElem :=
  ((part.measures.get? r.m).map Measure.notes).getD []

/-- Builds the occurrence-note object pushed at src/index.js:673-679:
`staff` is `staffCount + note.staff - 1` where `staffCount` is the 1-based
ordinal of the current part. -/
def mkNoteOcc (pOrd : Nat) (part : Part) (r : NRef) (note : Note) : NoteOcc :=
  { staff := pOrd + note.staff - 1
    measure := measureNumberAt part r
    measureNoteNumber := getElementIndex (measureNotesAt part r) r.n note.voice + 1
    note := note }

/-- The inner `for (patternIndex ...)` loop of `findPattern`
(src/index.js:654-680): `rest` is the remaining pattern suffix, `j` the
current `patternIndex`, `acc` the accumulated occurrence.  An undefined or
rest candidate is skipped (`continue`), still consuming pattern slot `j`;
otherwise the note is accumulated iff it matches the pattern entry in the
same `(staff, voice)` lane as the previous accumulated note, or pitch-equals
the previous accumulated note. -/
def alignLoop (pOrd : Nat) (part : Part) (lane : List NRef) (i : Nat) :
    List PN → Nat → List NoteOcc → Table → Except Unit (List NoteOcc × Table)
  | [], _, acc, tbl => .ok (acc, tbl)
  | pn :: rest, j, acc, tbl =>
    match laneCandidate lane i j with
    | none => alignLoop pOrd part lane i rest (j + 1) acc tbl
    | some r =>
      if isNotRest (noteAt part r) then
        match getNote tbl (noteAt part r) with
        | .error e => .error e
        | .ok (note, tbl') =>
          if (noteIsEqual note.pn pn &&
                staffVoiceIsEqual note ((acc.getLast?.map NoteOcc.note).getD note)) ||
              (match acc.getLast?.map NoteOcc.note with
               | some p => noteIsEqual note.pn p.pn
               | none => false) then
            alignLoop pOrd part lane i rest (j + 1) (acc ++ [mkNoteOcc pOrd part r note]) tbl'
          else
            alignLoop pOrd part lane i rest (j + 1) acc tbl'
      else alignLoop pOrd part lane i rest (j + 1) acc tbl

/-- An occurrence before numbering: the accumulated notes, the
`matchingCount` and the class it was filed under. -/
structure RawOcc where
  notes : List NoteOcc
  matchingCount : Nat
  exact : Bool
  deriving DecidableEq, Inhabited, Repr

/-- The classification of one window's accumulated occurrence
(src/index.js:682-704): `matchingCount` via `arrayIncludesCount`; exact
when `pattern.length - matchingCount === 0`; approximate when
`matchingCount / pattern.length > 0.6` (see the float note in the header);
otherwise discarded. -/
def classify (pat : List PN) (occ : List NoteOcc) : Option RawOcc :=
  let mc := arrayIncludesCount (occ.map fun o => o.note.pn) pat noteIsEqual
  if (pat.length : Int) - (mc : Int) = 0 then some ⟨occ, mc, true⟩
  else if 3 * pat.length < 5 * mc then some ⟨occ, mc, false⟩
  else none

/-- The window loop over one lane (src/index.js:652): one alignment attempt
per non-rest note of the lane, `i` being the running window start and `c`
the number of attempts left. -/
def windowsLoop (pOrd : Nat) (part : Part) (pat : List PN) (lane : List NRef) :
    Nat → Nat → Table → Except Unit (List RawOcc × Table)
  | _, 0, tbl => .ok ([], tbl)
  | i, c + 1, tbl =>
    match alignLoop pOrd part lane i pat 0 [] tbl with
    | .error e => .error e
    | .ok (occ, tbl1) =>
      match windowsLoop pOrd part pat lane (i + 1) c tbl1 with
      | .error e => .error e
      | .ok (raws, tbl2) => .ok ((classify pat occ).toList ++ raws, tbl2)

/-- The loop over a part's lanes (src/index.js:650-651). -/
def lanesLoop (pOrd : Nat) (part : Part) (pat : List PN) :
    List (List NRef) → Table → Except Unit (List RawOcc × Table)
  | [], tbl => .ok ([], tbl)
  | lane :: ls, tbl =>
    match windowsLoop pOrd part pat lane 0
        ((lane.filter fun r => isNotRest (noteAt part r)).length) tbl with
    | .error e => .error e
    | .ok (raws, tbl1) =>
      match lanesLoop pOrd part pat ls tbl1 with
      | .error e => .error e
      | .ok (raws', tbl2) => .ok (raws ++ raws', tbl2)

/-- Processing of one part (body of the `parts` loop, src/index.js:612-707);
`pOrd` is the value of `staffCount` after the `staffCount++` at the top of
the body, i.e. the part's 1-based position. -/
def processPart (pat : List PN) (pOrd : Nat) (part : Part) (tbl : Table) :
    Except Unit (List RawOcc × Table) :=
  lanesLoop pOrd part pat (lanesOf part) tbl

/-- The loop over parts. -/
def partsLoop (pat : List PN) : List Part → Nat → Table → Except Unit (List RawOcc × Table)
  | [], _, tbl => .ok ([], tbl)
  | p :: ps, pOrd, tbl =>
    match processPart pat pOrd p tbl with
    | .error e => .error e
    | .ok (raws, tbl1) =>
      match partsLoop pat ps (pOrd + 1) tbl1 with
      | .error e => .error e
      | .ok (raws', tbl2) => .ok (raws ++ raws', tbl2)

/-- All classified occurrences of a run, in discovery order, with the final
table state. -/
def findPatternRaws (doc : Doc) (pat : List PN) (tbl : Table) :
    Except Unit (List RawOcc × Table) :=
  partsLoop pat doc 1 tbl

/-- A reported `PatternOccurrence`. -/
structure POcc where
  occurenceNumber : Nat
  notes : List NoteOcc
  matchingCount : Nat
  deriving DecidableEq, Inhabited, Repr

/-- Sequential numbering within a result class, starting at `k` (the
`++exactPatternOccurrenceCount` / `++approximatePatternOccurrenceCount`
counters). -/
def numberFrom (k : Nat) : List RawOcc → List POcc
  | [] => []
  | r :: rs => ⟨k, r.notes, r.matchingCount⟩ :: numberFrom (k + 1) rs

/-- The value returned by `findPattern`. -/
structure FPResult where
  exactPatternOccurrences : List POcc
  approximatePatternOccurrences : List POcc
  deriving DecidableEq, Inhabited, Repr

/-- `findPattern` run from an explicit global-table state, returning the
result and the table state it leaves behind. -/
def findPatternRun (doc : Doc) (pat : List PN) (tbl : Table) :
    Except Unit (FPResult × Table) :=
  match findPatternRaws doc pat tbl with
  | .error e => .error e
  | .ok (raws, tbl') =>
    .ok (⟨numberFrom 1 (raws.filter fun r => r.exact),
          numberFrom 1 (raws.filter fun r => !r.exact)⟩, tbl')

/-- `findPattern(xml, pattern)` (src/index.js:599-710) from the page-load
global state. -/
def findPattern (doc : Doc) (pat : List PN) : Except Unit FPResult :=
  match findPatternRun doc pat Table.init with
  | .error e => .error e
  | .ok (res, _) => .ok res

/-- The total number of alignment attempts of a run: one per non-rest note
of each scanned lane. -/
def totalWindows (doc : Doc) : Nat :=
  (doc.map fun part =>
    ((lanesOf part).map fun lane =>
      (lane.filter fun r => isNotRest (noteAt part r)).length).sum).sum

deriving instance DecidableEq for Except

/-! ## Definitions modelled from the spec, for comparison with the code -/

/-- Modelled from the spec: the candidate the spec prescribes for window
start `i` and pattern index `j`, namely the `(i + j)`-th non-rest note of
the lane ("Rest notes ... are excluded from the lane sequence entirely
before windowing begins"). -/
def specCandidate (part : Part) (lane : List NRef) (i j : Nat) : Option NRef :=
  (lane.filter fun r => isNotRest (noteAt part r)).get? (i + j)

/-- Modelled from the spec: the greedy one-to-one coverage count — each
accumulated note may cover at most one pattern entry, consuming it
(left-to-right over the accumulated notes, each taking the first
still-unconsumed pitch-equal pattern entry). -/
def specOneToOneCount : List PN → List PN → Nat
  | [], _ => 0
  | n :: ns, patt =>
    match patt.findIdx? fun p => noteIsEqual n p with
    | some i => 1 + specOneToOneCount ns (patt.eraseIdx i)
    | none => specOneToOneCount ns patt

/-- Modelled from the spec: `positionInMeasure` — the 0-based rank of the
note at position `p` among all same-voice (voice defaulted to 1 when the
element is absent) note-or-rest siblings of its measure, in document
order. -/
def specPositionInMeasure (ms : List NoteElem) (p : Nat) : Nat :=
  ((List.range p).filter fun q =>
    ((ms.get? q).map fun n => jsDefaultPos n.voice) ==
      ((ms.get? p).map fun n => jsDefaultPos n.voice)).length

/-! ## Concrete fixtures -/

/-- Pattern entry with step `A` and no alteration. -/
def pnA : PN := ⟨some "A", none⟩

/-- Pattern entry with step `B` and no alteration. -/
def pnB : PN := ⟨some "B", none⟩

/-- Pattern entry with step `C` and no alteration. -/
def pnC : PN := ⟨some "C", none⟩

/-- A note element sounding step `A`, without `staff`/`voice` elements. -/
def noteA : NoteElem := ⟨false, some ⟨some "A", none, none⟩, none, none⟩

/-- A note element sounding step `B`, without `staff`/`voice` elements. -/
def noteB : NoteElem := ⟨false, some ⟨some "B", none, none⟩, none, none⟩

/-- A note element sounding step `D`, without `staff`/`voice` elements. -/
def noteD : NoteElem := ⟨false, some ⟨some "D", none, none⟩, none, none⟩

/-- A rest element. -/
def restElem : NoteElem := ⟨true, none, none, none⟩

/-- A single-measure part without a `staves` declaration. -/
def mkPart1 (notes : List NoteElem) : Part := ⟨none, [⟨1, notes⟩]⟩

/-- A note sounding `A` declared on staff 1, voice 1. -/
def noteS1V1 : NoteElem := ⟨false, some ⟨some "A", none, none⟩, some 1, some 1⟩

/-- A note sounding `A` declared on staff 1, voice 2. -/
def noteS1V2 : NoteElem := ⟨false, some ⟨some "A", none, none⟩, some 1, some 2⟩

/-- A two-staff part whose staff 1 holds a voice-1 note and then a voice-2
note. -/
def partC5 : Part := ⟨some 2, [⟨1, [noteS1V1, noteS1V2]⟩]⟩

/-- A document whose only part carries a voice-2 note then a voice-1 note
(both explicit, staff 1, no `staves` declaration). -/
def docC6 : Doc := [⟨none, [⟨1, [noteS1V2, noteS1V1]⟩]⟩]

/-- A part declaring zero notes. -/
def partZeroNotes : Part := ⟨none, [⟨1, []⟩]⟩

/-- A note element whose `pitch` element lacks a `step` child. -/
def noteNoStep : NoteElem := ⟨false, some ⟨none, none, none⟩, none, none⟩

/-- Two consecutive `findPattern` invocations sharing the module-global
table, as the browser page does: the second starts from the state the
first left behind. -/
def runTwice (doc : Doc) (pat : List PN) : Option (FPResult × FPResult) :=
  match findPatternRun doc pat Table.init with
  | .ok (r1, t1) =>
    match findPatternRun doc pat t1 with
    | .ok (r2, _) => some (r1, r2)
    | .error _ => none
  | .error _ => none

/-! ## Helper lemmas -/

/-- The count never exceeds the target's length. -/
theorem arrayIncludesCount_le {α : Type} (array target : List α) (cmp : α → α → Bool) :
    arrayIncludesCount array target cmp ≤ target.length := by
  induction target with
  | nil => simp [arrayIncludesCount]
  | cons v t ih =>
    simp only [arrayIncludesCount, List.length_cons]
    split
    · omega
    · omega

/-- `arrayIncludesCount` is the length of the longest prefix of the target
each of whose entries has some `cmp`-equal element of `array`. -/
theorem arrayIncludesCount_eq_takeWhile {α : Type} (array target : List α) (cmp : α → α → Bool) :
    arrayIncludesCount array target cmp =
      (target.takeWhile fun v => array.any fun s => cmp v s).length := by
  induction target with
  | nil => rfl
  | cons v t ih =>
    simp only [arrayIncludesCount, List.takeWhile_cons]
    cases h : array.any fun s => cmp v s with
    | true => simp [h, ih]; omega
    | false => simp [h]

/-- When the count saturates the target, every target entry has a
`cmp`-equal element of `array`. -/
theorem arrayIncludesCount_saturated {α : Type} {array target : List α} {cmp : α → α → Bool}
    (h : arrayIncludesCount array target cmp = target.length) :
    ∀ v ∈ target, (array.any fun s => cmp v s) = true := by
  induction target with
  | nil => simp
  | cons v t ih =>
    simp only [arrayIncludesCount, List.length_cons] at h
    intro w hw
    cases ha : array.any fun s => cmp v s with
    | false =>
      rw [ha] at h
      simp at h
    | true =>
      rw [ha] at h
      simp only [if_true] at h
      rcases List.mem_cons.mp hw with rfl | hw'
      · exact ha
      · exact ih (by omega) w hw'

/-- The `indexOf` of a position inside a filtered range is the number of
earlier positions passing the filter. -/
theorem indexOf_filter_range (pred : Nat → Bool) (n p : Nat) (hp : p < n)
    (hpred : pred p = true) :
    ((List.range n).filter pred).indexOf p = ((List.range p).filter pred).length := by
  induction n with
  | zero => omega
  | succ n ih =>
    rw [List.range_succ, List.filter_append]
    rcases Nat.lt_succ_iff_lt_or_eq.mp hp with h | h
    · rw [List.indexOf_append_of_mem]
      · exact ih h
      · simp only [List.mem_filter, List.mem_range]
        exact ⟨h, hpred⟩
    · subst h
      rw [List.indexOf_append_of_not_mem]
      · simp [hpred]
      · intro hmem
        have := (List.mem_filter.mp hmem).1
        simp only [List.mem_range] at this
        omega

/-- The inner pattern loop is a no-op on an exhausted pattern. -/
theorem alignLoop_nil (pOrd : Nat) (part : Part) (lane : List NRef) (i j : Nat)
    (acc : List NoteOcc) (tbl : Table) :
    alignLoop pOrd part lane i [] j acc tbl = .ok (acc, tbl) := rfl

/-- With an empty pattern every window classifies as an empty exact
occurrence and the table is untouched. -/
theorem windowsLoop_empty_pat (pOrd : Nat) (part : Part) (lane : List NRef) :
    ∀ c i tbl, windowsLoop pOrd part [] lane i c tbl =
      .ok (List.replicate c ⟨[], 0, true⟩, tbl) := by
  intro c
  induction c with
  | zero => intro i tbl; rfl
  | succ c ih =>
    intro i tbl
    rw [windowsLoop, alignLoop_nil]
    dsimp only
    rw [ih]
    rfl

/-- Lane loop with an empty pattern: one empty exact occurrence per
non-rest note of each lane. -/
theorem lanesLoop_empty_pat (pOrd : Nat) (part : Part) :
    ∀ (ls : List (List NRef)) (tbl : Table),
      lanesLoop pOrd part [] ls tbl =
        .ok (List.replicate
          ((ls.map fun lane => (lane.filter fun r => isNotRest (noteAt part r)).length).sum)
          ⟨[], 0, true⟩, tbl) := by
  intro ls
  induction ls with
  | nil => intro tbl; rfl
  | cons lane ls ih =>
    intro tbl
    rw [lanesLoop, windowsLoop_empty_pat]
    dsimp only
    rw [ih]
    dsimp only
    rw [List.map_cons, List.sum_cons, List.replicate_add]

/-- Parts loop with an empty pattern. -/
theorem partsLoop_empty_pat :
    ∀ (ps : List Part) (pOrd : Nat) (tbl : Table),
      partsLoop [] ps pOrd tbl =
        .ok (List.replicate
          ((ps.map fun part =>
            ((lanesOf part).map fun lane =>
              (lane.filter fun r => isNotRest (noteAt part r)).length).sum).sum)
          ⟨[], 0, true⟩, tbl) := by
  intro ps
  induction ps with
  | nil => intro pOrd tbl; rfl
  | cons p ps ih =>
    intro pOrd tbl
    rw [partsLoop, show processPart [] pOrd p tbl = lanesLoop pOrd p [] (lanesOf p) tbl from rfl,
      lanesLoop_empty_pat]
    dsimp only
    rw [ih]
    dsimp only
    rw [List.map_cons, List.sum_cons, List.replicate_add]

/-- Numbering a run of identical empty exact occurrences. -/
theorem numberFrom_replicate (k n : Nat) :
    numberFrom k (List.replicate n ⟨[], 0, true⟩) =
      (List.range' k n).map fun i => ⟨i, [], 0⟩ := by
  induction n generalizing k with
  | zero => rfl
  | succ n ih =>
    rw [List.replicate_succ, List.range'_succ, List.map_cons]
    rw [show numberFrom k ((⟨[], 0, true⟩ : RawOcc) :: List.replicate n ⟨[], 0, true⟩) =
      (⟨k, [], 0⟩ : POcc) :: numberFrom (k + 1) (List.replicate n ⟨[], 0, true⟩) from rfl]
    rw [ih]

/-- Defaulted staff/voice values are always at least 1. -/
theorem jsDefaultPos_pos (o : Option Nat) : 1 ≤ jsDefaultPos o := by
  cases o with
  | none => exact Nat.le.refl
  | some s => unfold jsDefaultPos; dsimp only; split <;> omega

/-- A successful `getNote` reports the defaulted staff of its element. -/
theorem getNote_ok_staff {tbl : Table} {e : NoteElem} {note : Note} {tbl2 : Table}
    (h : getNote tbl e = .ok (note, tbl2)) : note.staff = jsDefaultPos e.staff := by
  unfold getNote at h
  cases hp : e.pitch with
  | none => rw [hp] at h; exact absurd h (by simp)
  | some pd =>
    rw [hp] at h
    simp only [Except.ok.injEq, Prod.mk.injEq] at h
    obtain ⟨h1, -⟩ := h
    subst h1
    rfl

/-- Inversion of `classify`: the raw occurrence keeps the accumulated notes
and the computed count. -/
theorem classify_some {pat : List PN} {occ : List NoteOcc} {raw : RawOcc}
    (h : classify pat occ = some raw) :
    raw.notes = occ ∧
    raw.matchingCount = arrayIncludesCount (occ.map fun o => o.note.pn) pat noteIsEqual := by
  unfold classify at h
  dsimp only at h
  split at h
  · cases h; exact ⟨rfl, rfl⟩
  · split at h
    · cases h; exact ⟨rfl, rfl⟩
    · cases h

/-- Inversion of `classify` for the exact branch. -/
theorem classify_some_exact {pat : List PN} {occ : List NoteOcc} {raw : RawOcc}
    (h : classify pat occ = some raw) (he : raw.exact = true) :
    raw.matchingCount = pat.length := by
  unfold classify at h
  dsimp only at h
  split at h
  next hmc =>
    cases h
    dsimp only
    omega
  · split at h
    · cases h; cases he
    · cases h

/-- Inversion of `classify` for the approximate branch. -/
theorem classify_some_approx {pat : List PN} {occ : List NoteOcc} {raw : RawOcc}
    (h : classify pat occ = some raw) (he : raw.exact = false) :
    3 * pat.length < 5 * raw.matchingCount ∧ raw.matchingCount ≠ pat.length := by
  unfold classify at h
  dsimp only at h
  split at h
  · cases h; cases he
  next hne =>
    split at h
    next hlt =>
      cases h
      dsimp only
      refine ⟨hlt, fun hc => hne ?_⟩
      omega
    · cases h

/-- Every raw occurrence a window loop emits comes from one alignment
attempt over the same lane and pattern, classified by `classify`. -/
theorem windowsLoop_raws (pOrd : Nat) (part : Part) (pat : List PN) (lane : List NRef) :
    ∀ (c i : Nat) (tbl : Table) (raws : List RawOcc) (tbl2 : Table),
      windowsLoop pOrd part pat lane i c tbl = .ok (raws, tbl2) →
      ∀ raw ∈ raws, ∃ (i1 : Nat) (t1 : Table) (occ : List NoteOcc) (t2 : Table),
        alignLoop pOrd part lane i1 pat 0 [] t1 = .ok (occ, t2) ∧
        classify pat occ = some raw := by
  intro c
  induction c with
  | zero =>
    intro i tbl raws tbl2 h raw hraw
    rw [windowsLoop] at h
    simp only [Except.ok.injEq, Prod.mk.injEq] at h
    rw [← h.1] at hraw
    cases hraw
  | succ c ih =>
    intro i tbl raws tbl2 h raw hraw
    rw [windowsLoop] at h
    split at h
    · cases h
    next occ tbl1 halign =>
      split at h
      · cases h
      next raws0 tblx hrec =>
        simp only [Except.ok.injEq, Prod.mk.injEq] at h
        rw [← h.1] at hraw
        rcases List.mem_append.mp hraw with hmem | hmem
        · refine ⟨i, tbl, occ, tbl1, halign, ?_⟩
          cases hcl : classify pat occ with
          | none => rw [hcl] at hmem; cases hmem
          | some raw' =>
            rw [hcl] at hmem
            rcases List.mem_singleton.mp (by simpa using hmem) with rfl
            rfl
        · exact ih _ _ _ _ hrec raw hmem

/-- Provenance through the lane loop. -/
theorem lanesLoop_raws (pOrd : Nat) (part : Part) (pat : List PN) :
    ∀ (ls : List (List NRef)) (tbl : Table) (raws : List RawOcc) (tbl2 : Table),
      lanesLoop pOrd part pat ls tbl = .ok (raws, tbl2) →
      ∀ raw ∈ raws, ∃ (lane : List NRef) (i1 : Nat) (t1 : Table) (occ : List NoteOcc) (t2 : Table),
        lane ∈ ls ∧
        alignLoop pOrd part lane i1 pat 0 [] t1 = .ok (occ, t2) ∧
        classify pat occ = some raw := by
  intro ls
  induction ls with
  | nil =>
    intro tbl raws tbl2 h raw hraw
    rw [lanesLoop] at h
    simp only [Except.ok.injEq, Prod.mk.injEq] at h
    rw [← h.1] at hraw
    cases hraw
  | cons lane ls ih =>
    intro tbl raws tbl2 h raw hraw
    rw [lanesLoop] at h
    split at h
    · cases h
    next raws0 tbl1 hwin =>
      split at h
      · cases h
      next raws1 tblx hrec =>
        simp only [Except.ok.injEq, Prod.mk.injEq] at h
        rw [← h.1] at hraw
        rcases List.mem_append.mp hraw with hmem | hmem
        · obtain ⟨i1, t1, occ, t2, ha, hc⟩ := windowsLoop_raws pOrd part pat lane _ _ _ _ _ hwin raw hmem
          exact ⟨lane, i1, t1, occ, t2, List.mem_cons_self _ _, ha, hc⟩
        · obtain ⟨l, i1, t1, occ, t2, hl, ha, hc⟩ := ih _ _ _ hrec raw hmem
          exact ⟨l, i1, t1, occ, t2, List.mem_cons_of_mem _ hl, ha, hc⟩

/-- Provenance through one part. -/
theorem processPart_raws {pat : List PN} {pOrd : Nat} {part : Part} {tbl : Table}
    {raws : List RawOcc} {tbl2 : Table}
    (h : processPart pat pOrd part tbl = .ok (raws, tbl2)) :
    ∀ raw ∈ raws, ∃ (lane : List NRef) (i1 : Nat) (t1 : Table) (occ : List NoteOcc) (t2 : Table),
      lane ∈ lanesOf part ∧
      alignLoop pOrd part lane i1 pat 0 [] t1 = .ok (occ, t2) ∧
      classify pat occ = some raw :=
  lanesLoop_raws pOrd part pat (lanesOf part) tbl raws tbl2 h

/-- Provenance through the whole run: every raw occurrence comes from one
alignment attempt in some part. -/
theorem partsLoop_raws (pat : List PN) :
    ∀ (ps : List Part) (pOrd : Nat) (tbl : Table) (raws : List RawOcc) (tbl2 : Table),
      partsLoop pat ps pOrd tbl = .ok (raws, tbl2) →
      ∀ raw ∈ raws, ∃ (pOrd1 : Nat) (part : Part) (lane : List NRef) (i1 : Nat)
          (t1 : Table) (occ : List NoteOcc) (t2 : Table),
        part ∈ ps ∧ lane ∈ lanesOf part ∧
        alignLoop pOrd1 part lane i1 pat 0 [] t1 = .ok (occ, t2) ∧
        classify pat occ = some raw := by
  intro ps
  induction ps with
  | nil =>
    intro pOrd tbl raws tbl2 h raw hraw
    rw [partsLoop] at h
    simp only [Except.ok.injEq, Prod.mk.injEq] at h
    rw [← h.1] at hraw
    cases hraw
  | cons p ps ih =>
    intro pOrd tbl raws tbl2 h raw hraw
    rw [partsLoop] at h
    split at h
    · cases h
    next raws0 tbl1 hpp =>
      split at h
      · cases h
      next raws1 tblx hrec =>
        simp only [Except.ok.injEq, Prod.mk.injEq] at h
        rw [← h.1] at hraw
        rcases List.mem_append.mp hraw with hmem | hmem
        · obtain ⟨lane, i1, t1, occ, t2, hl, ha, hc⟩ := processPart_raws hpp raw hmem
          exact ⟨pOrd, p, lane, i1, t1, occ, t2, List.mem_cons_self _ _, hl, ha, hc⟩
        · obtain ⟨pOrd1, part, lane, i1, t1, occ, t2, hp', hl, ha, hc⟩ := ih _ _ _ _ hrec raw hmem
          exact ⟨pOrd1, part, lane, i1, t1, occ, t2, List.mem_cons_of_mem _ hp', hl, ha, hc⟩

/-- Membership in a numbered list comes from membership in the raw list. -/
theorem mem_numberFrom {po : POcc} :
    ∀ (l : List RawOcc) (k : Nat), po ∈ numberFrom k l →
      ∃ r ∈ l, po.notes = r.notes ∧ po.matchingCount = r.matchingCount := by
  intro l
  induction l with
  | nil => intro k h; cases h
  | cons r rs ih =>
    intro k h
    rw [numberFrom] at h
    rcases List.mem_cons.mp h with rfl | h'
    · exact ⟨r, List.mem_cons_self _ _, rfl, rfl⟩
    · obtain ⟨r', hr', h1, h2⟩ := ih (k + 1) h'
      exact ⟨r', List.mem_cons_of_mem _ hr', h1, h2⟩

/-- Alignment accumulates only notes whose staff coordinate is
`pOrd + staff - 1` for the note's own defaulted staff. -/
theorem alignLoop_staffP (pOrd : Nat) (part : Part) (lane : List NRef) (i : Nat) :
    ∀ (rest : List PN) (j : Nat) (acc : List NoteOcc) (tbl : Table)
      (occ : List NoteOcc) (tbl2 : Table),
      alignLoop pOrd part lane i rest j acc tbl = .ok (occ, tbl2) →
      (∀ x ∈ acc, x.staff = pOrd + x.note.staff - 1 ∧ 1 ≤ x.note.staff) →
      ∀ x ∈ occ, x.staff = pOrd + x.note.staff - 1 ∧ 1 ≤ x.note.staff := by
  intro rest
  induction rest with
  | nil =>
    intro j acc tbl occ tbl2 h hacc
    rw [alignLoop_nil] at h
    simp only [Except.ok.injEq, Prod.mk.injEq] at h
    rw [← h.1]
    exact hacc
  | cons pn rest ih =>
    intro j acc tbl occ tbl2 h hacc
    rw [alignLoop] at h
    split at h
    · exact ih _ _ _ _ _ h hacc
    next r =>
      split at h
      · split at h
        · cases h
        next note tbl1 hget =>
          split at h
          · refine ih _ _ _ _ _ h ?_
            intro x hx
            rcases List.mem_append.mp hx with hx | hx
            · exact hacc x hx
            · rcases List.mem_singleton.mp hx with rfl
              refine ⟨rfl, ?_⟩
              show 1 ≤ note.staff
              rw [getNote_ok_staff hget]
              exact jsDefaultPos_pos _
          · exact ih _ _ _ _ _ h hacc
      · exact ih _ _ _ _ _ h hacc

/-- `readIdx` of an empty sparse array. -/
theorem readIdx_nil {α : Type} (i : Nat) : readIdx ([] : List (Option α)) i = none := by
  cases i <;> rfl

/-- Reading back the slot just assigned. -/
theorem readIdx_setIdx_self {α : Type} :
    ∀ (l : List (Option α)) (i : Nat) (a : α), readIdx (setIdx l i a) i = some a
  | [], 0, _ => rfl
  | [], i + 1, a => readIdx_setIdx_self [] i a
  | _ :: _, 0, _ => rfl
  | _ :: xs, i + 1, a => readIdx_setIdx_self xs i a

/-- Assignment leaves other slots unchanged. -/
theorem readIdx_setIdx_ne {α : Type} :
    ∀ (l : List (Option α)) (i j : Nat) (a : α), i ≠ j →
      readIdx (setIdx l i a) j = readIdx l j
  | [], 0, 0, _, h => absurd rfl h
  | [], 0, _ + 1, _, _ => rfl
  | [], _ + 1, 0, _, _ => rfl
  | [], i + 1, j + 1, a, h => readIdx_setIdx_ne [] i j a (fun hc => h (by rw [hc]))
  | _ :: _, 0, 0, _, h => absurd rfl h
  | _ :: _, 0, _ + 1, _, _ => rfl
  | _ :: _, _ + 1, 0, _, _ => rfl
  | _ :: xs, i + 1, j + 1, a, h => readIdx_setIdx_ne xs i j a (fun hc => h (by rw [hc]))

/-- A property of every note reference stored in an indexed voice bucket of
the grouping array, indexed by the bucket's coordinates. -/
def BucketP (P : Nat → Nat → NRef → Prop) (sa : SA) : Prop :=
  ∀ (si : Nat) (vb : VB), readIdx sa.staves si = some vb →
    ∀ (vi : Nat) (lst : List NRef), readIdx vb.buckets vi = some lst →
      ∀ r ∈ lst, P si vi r

/-- The empty grouping array satisfies every bucket property. -/
theorem BucketP_empty (P : Nat → Nat → NRef → Prop) : BucketP P ⟨[], none⟩ := by
  intro si vb hsi
  rw [readIdx_nil] at hsi
  cases hsi

/-- One `addNote` step preserves a bucket property, provided the property
accepts the new note at the slot the code computes for it
(`(staff - 1, voice - 1)` for its own staff/voice elements; a note with a
missing staff or voice element only touches the unscanned `NaN`
properties or is dropped). -/
theorem addNote_BucketP {part : Part} {P : Nat → Nat → NRef → Prop} {sa : SA} {r : NRef}
    (h : BucketP P sa)
    (hnew : ∀ s v, (noteAt part r).staff = some s → (noteAt part r).voice = some v →
      P (s - 1) (v - 1) r) :
    BucketP P (addNote part sa r) := by
  intro si vb hsi vi lst hvi r' hr'
  unfold addNote at hsi
  cases hread : SA.read sa (noteAt part r).staff with
  | some vb0 =>
    rw [hread] at hsi
    dsimp only at hsi
    cases hvread : VB.read vb0 (noteAt part r).voice with
    | some lst0 =>
      rw [hvread] at hsi
      dsimp only at hsi
      cases hst : (noteAt part r).staff with
      | none =>
        rw [hst] at hsi
        exact h si vb hsi vi lst hvi r' hr'
      | some s =>
        rw [hst] at hsi
        rw [hst] at hread
        by_cases hseq : s - 1 = si
        · subst hseq
          rw [show (SA.write sa (some s) (vb0.write (noteAt part r).voice (lst0 ++ [r]))).staves
              = setIdx sa.staves (s - 1) (vb0.write (noteAt part r).voice (lst0 ++ [r]))
              from rfl, readIdx_setIdx_self] at hsi
          have hvb : vb = vb0.write (noteAt part r).voice (lst0 ++ [r]) :=
            (Option.some.injEq _ _ ▸ hsi).symm
          have hvb0 : readIdx sa.staves (s - 1) = some vb0 := hread
          cases hv : (noteAt part r).voice with
          | none =>
            rw [hv] at hvb
            rw [show vb.buckets = vb0.buckets from by rw [hvb]; exact rfl] at hvi
            exact h _ vb0 hvb0 vi lst hvi r' hr'
          | some v =>
            rw [hv] at hvb
            rw [show vb.buckets = setIdx vb0.buckets (v - 1) (lst0 ++ [r]) from by
              rw [hvb]; exact rfl] at hvi
            by_cases hveq : v - 1 = vi
            · subst hveq
              rw [readIdx_setIdx_self] at hvi
              have hlst : lst = lst0 ++ [r] := (Option.some.injEq _ _ ▸ hvi).symm
              rw [hlst] at hr'
              rcases List.mem_append.mp hr' with hmem | hmem
              · rw [hv] at hvread
                exact h _ vb0 hvb0 _ lst0 hvread r' hmem
              · rcases List.mem_singleton.mp hmem with rfl
                exact hnew s v hst hv
            · rw [readIdx_setIdx_ne _ _ _ _ hveq] at hvi
              exact h _ vb0 hvb0 vi lst hvi r' hr'
        · rw [show (SA.write sa (some s) (vb0.write (noteAt part r).voice (lst0 ++ [r]))).staves
              = setIdx sa.staves (s - 1) (vb0.write (noteAt part r).voice (lst0 ++ [r]))
              from rfl, readIdx_setIdx_ne _ _ _ _ hseq] at hsi
          exact h si vb hsi vi lst hvi r' hr'
    | none =>
      rw [hvread] at hsi
      dsimp only at hsi
      exact h si vb hsi vi lst hvi r' hr'
  | none =>
    rw [hread] at hsi
    dsimp only at hsi
    cases hst : (noteAt part r).staff with
    | none =>
      rw [hst] at hsi
      exact h si vb hsi vi lst hvi r' hr'
    | some s =>
      rw [hst] at hsi
      by_cases hseq : s - 1 = si
      · subst hseq
        rw [show (SA.write sa (some s) (VB.write ⟨[], none⟩ (noteAt part r).voice [r])).staves
            = setIdx sa.staves (s - 1) (VB.write ⟨[], none⟩ (noteAt part r).voice [r])
            from rfl, readIdx_setIdx_self] at hsi
        have hvb : vb = VB.write ⟨[], none⟩ (noteAt part r).voice [r] :=
          (Option.some.injEq _ _ ▸ hsi).symm
        cases hv : (noteAt part r).voice with
        | none =>
          rw [hv] at hvb
          rw [show vb.buckets = [] from by rw [hvb]; exact rfl] at hvi
          rw [readIdx_nil] at hvi
          cases hvi
        | some v =>
          rw [hv] at hvb
          rw [show vb.buckets = setIdx [] (v - 1) [r] from by rw [hvb]; exact rfl] at hvi
          by_cases hveq : v - 1 = vi
          · subst hveq
            rw [readIdx_setIdx_self] at hvi
            have hlst : lst = [r] := (Option.some.injEq _ _ ▸ hvi).symm
            rw [hlst] at hr'
            rcases List.mem_singleton.mp hr' with rfl
            exact hnew s v hst hv
          · rw [readIdx_setIdx_ne _ _ _ _ hveq, readIdx_nil] at hvi
            cases hvi
      · rw [show (SA.write sa (some s) (VB.write ⟨[], none⟩ (noteAt part r).voice [r])).staves
            = setIdx sa.staves (s - 1) (VB.write ⟨[], none⟩ (noteAt part r).voice [r])
            from rfl, readIdx_setIdx_ne _ _ _ _ hseq] at hsi
        exact h si vb hsi vi lst hvi r' hr'

/-- Folding `addNote` over a list of references preserves a bucket
property. -/
theorem foldl_addNote_BucketP {part : Part} {P : Nat → Nat → NRef → Prop} :
    ∀ (L : List NRef) (sa : SA), BucketP P sa →
      (∀ r ∈ L, ∀ s v, (noteAt part r).staff = some s → (noteAt part r).voice = some v →
        P (s - 1) (v - 1) r) →
      BucketP P (L.foldl (addNote part) sa) := by
  intro L
  induction L with
  | nil => intro sa h _; exact h
  | cons r L ih =>
    intro sa h hL
    rw [List.foldl_cons]
    exact ih _ (addNote_BucketP h (hL r (List.mem_cons_self _ _)))
      fun r' hr' => hL r' (List.mem_cons_of_mem _ hr')

/-- Every scanned lane is one of the indexed voice buckets. -/
theorem lanesOf_provenance {part : Part} {lane : List NRef} (hl : lane ∈ lanesOf part) :
    ∃ (si : Nat) (vb : VB) (vi : Nat),
      readIdx (staveNotesOf part).staves si = some vb ∧
      readIdx vb.buckets vi = some lane := by
  unfold lanesOf at hl
  rw [List.mem_flatMap] at hl
  obtain ⟨vb, hvb, hlane⟩ := hl
  rw [List.mem_filterMap] at hvb hlane
  obtain ⟨ovb, hovb, hov⟩ := hvb
  obtain ⟨olst, holst, hol⟩ := hlane
  obtain ⟨si, hsi⟩ := List.get?_of_mem hovb
  obtain ⟨vi, hvi⟩ := List.get?_of_mem holst
  refine ⟨si, vb, vi, ?_, ?_⟩
  · unfold readIdx
    rw [hsi]
    simpa using hov
  · unfold readIdx
    rw [hvi]
    simpa using hol

/-- `noteIsEqual` as propositional equality of the two compared fields. -/
theorem noteIsEqual_iff {a b : PN} :
    noteIsEqual a b = true ↔ a.step = b.step ∧ a.alter = b.alter := by
  simp [noteIsEqual]

/-- Pitch-content equality is symmetric. -/
theorem noteIsEqual_symm {a b : PN} (h : noteIsEqual a b = true) : noteIsEqual b a = true := by
  rw [noteIsEqual_iff] at h ⊢
  exact ⟨h.1.symm, h.2.symm⟩

/-- Pitch-content equality is transitive. -/
theorem noteIsEqual_trans {a b c : PN} (h1 : noteIsEqual a b = true)
    (h2 : noteIsEqual b c = true) : noteIsEqual a c = true := by
  rw [noteIsEqual_iff] at h1 h2 ⊢
  exact ⟨h1.1.trans h2.1, h1.2.trans h2.2⟩

/-- Step relation of the alignment invariant: each accumulated note is
tagged with the pattern slot it consumed; consecutive tags strictly
increase, and each note either pitch-matches its own slot or pitch-equals
the previous accumulated note. -/
def slotStep (pat : List PN) (a b : Nat × NoteOcc) : Prop :=
  a.1 < b.1 ∧ (noteIsEqual b.2.note.pn (pat.getD b.1 ⟨none, none⟩) = true ∨
    noteIsEqual b.2.note.pn a.2.note.pn = true)

/-- Invariant of the alignment loop at pattern position `j`: the
accumulated notes carry strictly increasing slots below `j` (and below the
pattern length), the first accumulated note pitch-matches its own slot,
and consecutive entries satisfy `slotStep`. -/
def AlignedAcc (pat : List PN) (j : Nat) (zp : List (Nat × NoteOcc)) : Prop :=
  (∀ p ∈ zp, p.1 < j ∧ p.1 < pat.length) ∧
  (∀ hd ∈ zp.head?, noteIsEqual hd.2.note.pn (pat.getD hd.1 ⟨none, none⟩) = true) ∧
  List.Chain' (slotStep pat) zp

/-- The invariant is monotone in the position bound. -/
theorem AlignedAcc_mono {pat : List PN} {j j' : Nat} {zp : List (Nat × NoteOcc)}
    (h : AlignedAcc pat j zp) (hj : j ≤ j') : AlignedAcc pat j' zp :=
  ⟨fun p hp => ⟨lt_of_lt_of_le (h.1 p hp).1 hj, (h.1 p hp).2⟩, h.2.1, h.2.2⟩

/-- Appending a note at the current slot preserves the invariant, when the
note matches its slot or pitch-equals the last accumulated note. -/
theorem AlignedAcc_append {pat : List PN} {j : Nat} {zp : List (Nat × NoteOcc)} {x : NoteOcc}
    (hinv : AlignedAcc pat j zp) (hj : j < pat.length)
    (hmatch : noteIsEqual x.note.pn (pat.getD j ⟨none, none⟩) = true ∨
      ∃ last ∈ zp.getLast?, noteIsEqual x.note.pn last.2.note.pn = true) :
    AlignedAcc pat (j + 1) (zp ++ [(j, x)]) := by
  obtain ⟨hb, hh, hc⟩ := hinv
  refine ⟨?_, ?_, ?_⟩
  · intro p hp
    rcases List.mem_append.mp hp with hp | hp
    · exact ⟨by have := (hb p hp).1; omega, (hb p hp).2⟩
    · rcases List.mem_singleton.mp hp with rfl
      exact ⟨by omega, hj⟩
  · cases zp with
    | nil =>
      intro hd hhd
      simp only [List.nil_append, List.head?_cons, Option.mem_def, Option.some.injEq] at hhd
      subst hhd
      rcases hmatch with hm | ⟨last, hlast, -⟩
      · exact hm
      · simp at hlast
    | cons z zs =>
      intro hd hhd
      apply hh
      simpa using hhd
  · rw [List.chain'_append]
    refine ⟨hc, List.chain'_singleton _, ?_⟩
    intro a ha y hy
    simp only [List.head?_cons, Option.mem_def, Option.some.injEq] at hy
    subst hy
    have hamem : a ∈ zp := List.mem_of_mem_getLast? ha
    refine ⟨(hb a hamem).1, ?_⟩
    rcases hmatch with hm | ⟨last, hlast, heq⟩
    · exact Or.inl hm
    · rw [Option.mem_def] at ha hlast
      rw [ha] at hlast
      cases hlast
      exact Or.inr heq

/-- The alignment loop turns an invariant-satisfying accumulator into an
invariant-satisfying final occurrence (each alignment attempt starts from
the empty accumulator, which satisfies the invariant trivially). -/
theorem alignLoop_aligned (pOrd : Nat) (part : Part) (lane : List NRef) (i : Nat)
    (pat : List PN) :
    ∀ (rest : List PN) (j : Nat) (zp : List (Nat × NoteOcc)) (tbl : Table)
      (occ : List NoteOcc) (tbl2 : Table),
      rest = pat.drop j →
      AlignedAcc pat j zp →
      alignLoop pOrd part lane i rest j (zp.map Prod.snd) tbl = .ok (occ, tbl2) →
      ∃ zp2, occ = zp2.map Prod.snd ∧ AlignedAcc pat pat.length zp2 := by
  intro rest
  induction rest with
  | nil =>
    intro j zp tbl occ tbl2 hdrop hinv h
    rw [alignLoop_nil] at h
    simp only [Except.ok.injEq, Prod.mk.injEq] at h
    exact ⟨zp, h.1.symm,
      ⟨fun p hp => ⟨(hinv.1 p hp).2, (hinv.1 p hp).2⟩, hinv.2.1, hinv.2.2⟩⟩
  | cons pn rest ih =>
    intro j zp tbl occ tbl2 hdrop hinv h
    have hjlt : j < pat.length := by
      have hlen := congrArg List.length hdrop
      simp only [List.length_cons, List.length_drop] at hlen
      omega
    have hget : pat.get? j = some pn := by
      have h0 := List.getElem?_drop pat j 0
      rw [← hdrop] at h0
      simpa using h0.symm
    have hpn : pat.getD j ⟨none, none⟩ = pn := by
      rw [List.getD_eq_getD_get?, hget]
      rfl
    have hdrop' : rest = pat.drop (j + 1) := by
      have h1 : pat.drop (j + 1) = List.drop 1 (pat.drop j) := by
        rw [List.drop_drop]
      rw [h1, ← hdrop]
      rfl
    rw [alignLoop] at h
    split at h
    · exact ih _ _ _ _ _ hdrop' (AlignedAcc_mono hinv (by omega)) h
    next r hcand =>
      split at h
      · split at h
        · cases h
        next note tbl1 hget2 =>
          split at h
          next hcond =>
            rw [show (zp.map Prod.snd) ++ [mkNoteOcc pOrd part r note]
                = (zp ++ [(j, mkNoteOcc pOrd part r note)]).map Prod.snd from by simp] at h
            refine ih _ _ _ _ _ hdrop' (AlignedAcc_append hinv hjlt ?_) h
            rw [Bool.or_eq_true] at hcond
            rcases hcond with h1 | h2
            · left
              rw [hpn]
              rw [Bool.and_eq_true] at h1
              exact h1.1
            · right
              cases hlast : zp.getLast? with
              | none =>
                rw [List.getLast?_map, hlast] at h2
                simp at h2
              | some zlast =>
                rw [List.getLast?_map, hlast] at h2
                refine ⟨zlast, Option.mem_def.mpr rfl, ?_⟩
                simpa using h2
          · exact ih _ _ _ _ _ hdrop' (AlignedAcc_mono hinv (by omega)) h
      · exact ih _ _ _ _ _ hdrop' (AlignedAcc_mono hinv (by omega)) h

/-- The first index satisfying a predicate is minimal. -/
theorem findIdx_le_of_get {α : Type} (p : α → Bool) :
    ∀ (l : List α) (i : Nat) (h : i < l.length), p (l.get ⟨i, h⟩) = true → l.findIdx p ≤ i := by
  intro l
  induction l with
  | nil => intro i h; exact absurd h (Nat.not_lt_zero i)
  | cons x xs ih =>
    intro i h hp
    rw [List.findIdx_cons]
    cases hx : p x with
    | true => simp
    | false =>
      cases i with
      | zero => exact absurd hp (by simp [show ((x :: xs).get ⟨0, h⟩) = x from rfl, hx])
      | succ i =>
        simp only [cond_false]
        have := ih i (by simpa using h) (by simpa using hp)
        omega

/-- In a pairwise non-pitch-equal pattern, pitch-equal entries coincide. -/
theorem pat_distinct_eq {pat : List PN}
    (hdist : pat.Pairwise fun a b => noteIsEqual a b = false)
    {a b : Nat} (ha : a < pat.length) (hb : b < pat.length)
    (h : noteIsEqual (pat.get ⟨a, ha⟩) (pat.get ⟨b, hb⟩) = true) : a = b := by
  by_contra hne
  rcases Nat.lt_or_ge a b with hab | hab
  · have hf := List.pairwise_iff_get.mp hdist ⟨a, ha⟩ ⟨b, hb⟩ hab
    rw [h] at hf
    cases hf
  · have hba : b < a := by omega
    have hf := List.pairwise_iff_get.mp hdist ⟨b, hb⟩ ⟨a, ha⟩ hba
    rw [noteIsEqual_symm h] at hf
    cases hf

/-- Combinatorial core of the C1 amendment: when the pattern's entries are
pairwise non-pitch-equal and the with-reuse count saturates the pattern,
an invariant-satisfying accumulated occurrence aligns with the pattern
pointwise (in particular it has exactly the pattern's length). -/
theorem aligned_exact_forall₂ {pat : List PN} {zp : List (Nat × NoteOcc)} {ns : List PN}
    (hnseq : ns = (zp.map Prod.snd).map fun o => o.note.pn)
    (hdist : pat.Pairwise fun a b => noteIsEqual a b = false)
    (hinv : AlignedAcc pat pat.length zp)
    (hmc : arrayIncludesCount ns pat noteIsEqual = pat.length) :
    List.Forall₂ (fun x p => noteIsEqual x p = true) ns pat := by
  classical
  obtain ⟨hb, hh, hc⟩ := hinv
  have hns_len : ns.length = zp.length := by simp [hnseq]
  have hcov : ∀ v ∈ pat, ns.any (fun s => noteIsEqual v s) = true :=
    arrayIncludesCount_saturated hmc
  have hchain : List.Chain' (· < ·) (zp.map Prod.fst) := by
    rw [List.chain'_map]
    exact hc.imp fun a b hab => hab.1
  have hpw : (zp.map Prod.fst).Pairwise (· < ·) := List.chain'_iff_pairwise.mp hchain
  have hnd : (zp.map Prod.fst).Nodup := hpw.imp Nat.ne_of_lt
  have hltk : ∀ a ∈ zp.map Prod.fst, a < pat.length := by
    intro a haa
    obtain ⟨p, hp, rfl⟩ := List.mem_map.mp haa
    exact (hb p hp).1
  have hsub : (zp.map Prod.fst).toFinset ⊆ Finset.range pat.length := by
    intro a haa
    rw [List.mem_toFinset] at haa
    rw [Finset.mem_range]
    exact hltk a haa
  have hlen_le : zp.length ≤ pat.length := by
    have h1 : (zp.map Prod.fst).toFinset.card = zp.length := by
      rw [List.toFinset_card_of_nodup hnd, List.length_map]
    have h2 := Finset.card_le_card hsub
    rw [h1, Finset.card_range] at h2
    exact h2
  have hex : ∀ jv, jv < pat.length →
      ∃ x ∈ ns, noteIsEqual (pat.getD jv ⟨none, none⟩) x = true := by
    intro jv hjv
    have hvm : pat.getD jv ⟨none, none⟩ ∈ pat := by
      rw [List.getD_eq_get _ _ hjv]
      exact List.get_mem _ _ _
    have hv := hcov _ hvm
    rw [List.any_eq_true] at hv
    exact hv
  have hflt : ∀ jv, jv < pat.length →
      ns.findIdx (fun s => noteIsEqual (pat.getD jv ⟨none, none⟩) s) < ns.length :=
    fun jv hjv => List.findIdx_lt_length_of_exists (hex jv hjv)
  have hfp : ∀ jv, jv < pat.length →
      noteIsEqual (pat.getD jv ⟨none, none⟩)
        (ns.getD (ns.findIdx fun s => noteIsEqual (pat.getD jv ⟨none, none⟩) s)
          ⟨none, none⟩) = true := by
    intro jv hjv
    rw [List.getD_eq_getElem _ _ (hflt jv hjv)]
    exact @List.findIdx_getElem _ _ _ (hflt jv hjv)
  have hinj : ∀ a, a < pat.length → ∀ b, b < pat.length →
      (ns.findIdx fun s => noteIsEqual (pat.getD a ⟨none, none⟩) s) =
        (ns.findIdx fun s => noteIsEqual (pat.getD b ⟨none, none⟩) s) → a = b := by
    intro a haa b hbb heq
    have h1 := hfp a haa
    have h2 := hfp b hbb
    rw [heq] at h1
    have h3 : noteIsEqual (pat.getD a ⟨none, none⟩) (pat.getD b ⟨none, none⟩) = true :=
      noteIsEqual_trans h1 (noteIsEqual_symm h2)
    rw [List.getD_eq_get _ _ haa, List.getD_eq_get _ _ hbb] at h3
    exact pat_distinct_eq hdist haa hbb h3
  have hinj' : Set.InjOn (fun jv => ns.findIdx fun s => noteIsEqual (pat.getD jv ⟨none, none⟩) s)
      (Finset.range pat.length) := by
    intro a ha b hbm heq
    rw [Finset.coe_range, Set.mem_Iio] at ha hbm
    exact hinj a ha b hbm heq
  have hlen_ge : pat.length ≤ ns.length := by
    have hmaps : ∀ a ∈ Finset.range pat.length,
        (fun jv => ns.findIdx fun s => noteIsEqual (pat.getD jv ⟨none, none⟩) s) a
          ∈ Finset.range ns.length := by
      intro a ha
      rw [Finset.mem_range] at ha ⊢
      exact hflt a ha
    have hcard := Finset.card_le_card_of_injOn _ hmaps hinj'
    simpa using hcard
  have hzp_len : zp.length = pat.length := by omega
  have hns_len' : ns.length = pat.length := by omega
  have himage : ∀ l, l < ns.length → ∃ jv, jv < pat.length ∧
      (ns.findIdx fun s => noteIsEqual (pat.getD jv ⟨none, none⟩) s) = l := by
    have himg : Finset.image
        (fun jv => ns.findIdx fun s => noteIsEqual (pat.getD jv ⟨none, none⟩) s)
        (Finset.range pat.length) = Finset.range ns.length := by
      apply Finset.eq_of_subset_of_card_le
      · intro x hx
        rw [Finset.mem_image] at hx
        obtain ⟨a, ha, rfl⟩ := hx
        rw [Finset.mem_range] at ha ⊢
        exact hflt a ha
      · rw [Finset.card_range, Finset.card_image_of_injOn hinj', Finset.card_range]
        omega
    intro l hl
    have hmem : l ∈ Finset.image
        (fun jv => ns.findIdx fun s => noteIsEqual (pat.getD jv ⟨none, none⟩) s)
        (Finset.range pat.length) := by
      rw [himg, Finset.mem_range]
      exact hl
    rw [Finset.mem_image] at hmem
    obtain ⟨jv, hjv, hfjv⟩ := hmem
    rw [Finset.mem_range] at hjv
    exact ⟨jv, hjv, hfjv⟩
  have htfs : (zp.map Prod.fst).toFinset = (List.range pat.length).toFinset := by
    have hrg : (List.range pat.length).toFinset = Finset.range pat.length := by
      ext a
      simp
    rw [hrg]
    apply Finset.eq_of_subset_of_card_le hsub
    rw [List.toFinset_card_of_nodup hnd, List.length_map, hzp_len, Finset.card_range]
  have hjs : zp.map Prod.fst = List.range pat.length :=
    List.eq_of_perm_of_sorted
      (List.perm_of_nodup_nodup_toFinset_eq hnd (List.nodup_range _) htfs)
      hpw (List.sorted_lt_range _)
  have hslot : ∀ (l : Nat) (hl : l < zp.length), (zp.get ⟨l, hl⟩).1 = l := by
    intro l hl
    have h1 : (zp.map Prod.fst).get? l = some ((zp.get ⟨l, hl⟩).1) := by
      rw [List.get?_map, List.get?_eq_get hl]
      rfl
    rw [hjs, List.get?_range (by omega)] at h1
    exact ((Option.some.injEq _ _).mp h1).symm
  have hns_idx : ∀ (l : Nat) (hl : l < zp.length),
      (zp.get ⟨l, hl⟩).2.note.pn = ns.getD l ⟨none, none⟩ := by
    intro l hl
    rw [List.getD_eq_get _ _ (by omega)]
    subst hnseq
    simp
  have hhead0 : ∀ (h0 : 0 < zp.length), zp.get ⟨0, h0⟩ ∈ zp.head? := by
    intro h0
    cases zp with
    | nil => simp at h0
    | cons z zs => exact Option.mem_def.mpr rfl
  have hpoint : ∀ (l : Nat), l < zp.length →
      noteIsEqual (ns.getD l ⟨none, none⟩) (pat.getD l ⟨none, none⟩) = true := by
    intro l
    induction l with
    | zero =>
      intro hl
      have hmz := hh _ (hhead0 hl)
      rw [hslot 0 hl] at hmz
      rw [← hns_idx 0 hl]
      exact hmz
    | succ l ihl =>
      intro hl
      have hl' : l < zp.length := by omega
      have ihv := ihl hl'
      have hstep := List.chain'_iff_get.mp hc l (by omega)
      obtain ⟨-, hd2⟩ := hstep
      rw [hslot (l + 1) (by omega)] at hd2
      rw [hns_idx (l + 1) (by omega), hns_idx l (by omega)] at hd2
      rcases hd2 with hm | hp
      · exact hm
      · exfalso
        obtain ⟨jv, hjv, hfjv⟩ := himage (l + 1) (by omega)
        have hj1 := hfp jv hjv
        rw [hfjv] at hj1
        have hj2 : noteIsEqual (pat.getD jv ⟨none, none⟩) (pat.getD l ⟨none, none⟩) = true :=
          noteIsEqual_trans hj1 (noteIsEqual_trans hp ihv)
        have hjl : jv = l := by
          rw [List.getD_eq_get _ _ hjv, List.getD_eq_get _ _ (by omega)] at hj2
          exact pat_distinct_eq hdist hjv (by omega) hj2
        have hmin : (ns.findIdx fun s => noteIsEqual (pat.getD jv ⟨none, none⟩) s) ≤ l := by
          apply findIdx_le_of_get _ _ l (by omega)
          rw [← List.getD_eq_get _ _ (by omega), hjl]
          exact noteIsEqual_symm ihv
        omega
  rw [List.forall₂_iff_get]
  refine ⟨by omega, ?_⟩
  intro i h1 h2
  have hpt := hpoint i (by omega)
  rwa [List.getD_eq_get _ _ h1, List.getD_eq_get _ _ h2] at hpt

/-! ## Counterexample theorems for the corrected claims -/

/-- C1 counterexample: on a document with a single note `A` and the
pattern `[A, A]` (length 2), `findPattern` emits an exact occurrence
containing only 1 note, so not every exact occurrence has exactly
`k` notes pitch-equal to the pattern entries in order. -/
theorem c1_counterexample :
    (findPattern [mkPart1 [noteA]] [pnA, pnA]).map
        (fun r => r.exactPatternOccurrences.map fun o => o.notes.length) =
      .ok [1] ∧ ([pnA, pnA] : List PN).length = 2 := by decide

/-- C2 counterexample: for the same run, the `matchingCount` the code uses
to classify the occurrence is 2, although the greedy one-to-one coverage
count of its single accumulated note against the pattern multiset is 1 —
the code's count re-uses one accumulated note for both pattern entries. -/
theorem c2_counterexample :
    (findPattern [mkPart1 [noteA]] [pnA, pnA]).map
        (fun r => r.exactPatternOccurrences.map fun o =>
          (o.matchingCount, specOneToOneCount (o.notes.map fun x => x.note.pn) [pnA, pnA])) =
      .ok [(2, 1)] := by decide

/-- C4 counterexample: in a single-staff part the scanned lane retains its
rest (`lanesOf` keeps both entries), and the candidate examined for window
start 0, pattern index 0 is the rest element, not the 0-th non-rest note
of the lane; consequently the pattern `[A]`, though present, produces no
occurrence at all. -/
theorem c4_counterexample :
    lanesOf (mkPart1 [restElem, noteA]) = [[⟨0, 0⟩, ⟨0, 1⟩]] ∧
    laneCandidate [⟨0, 0⟩, ⟨0, 1⟩] 0 0 = some ⟨0, 0⟩ ∧
    (noteAt (mkPart1 [restElem, noteA]) ⟨0, 0⟩).rest = true ∧
    specCandidate (mkPart1 [restElem, noteA]) [⟨0, 0⟩, ⟨0, 1⟩] 0 0 = some ⟨0, 1⟩ ∧
    findPattern [mkPart1 [restElem, noteA]] [pnA] = .ok ⟨[], []⟩ := by decide

/-- C5 counterexample: in a part with `staves = 2`, the non-rest note at
reference `⟨0, 1⟩` (staff 1, voice 2) belongs to no voice lane at all —
the grouping loop drops it because its staff slot already exists but its
voice bucket does not — so the part's non-rest notes are not partitioned
into lanes. -/
theorem c5_counterexample :
    staffCountVal partC5 > 1 ∧
    ((partRefs partC5).filter fun r => isNotRest (noteAt partC5 r)) = [⟨0, 0⟩, ⟨0, 1⟩] ∧
    lanesOf partC5 = [[⟨0, 0⟩]] := by decide

/-- C7 counterexample: with an empty pattern `findPattern` does not fail;
it emits one exact occurrence (with zero notes) for the scanned note, so
scanning does happen and occurrences are produced. -/
theorem c7_counterexample :
    findPattern [mkPart1 [noteA]] ([] : List PN) = .ok ⟨[⟨1, [], 0⟩], []⟩ := by decide

/-- C8 counterexample: a document whose only part declares zero notes is
processed without any failure, returning empty result sets — there is no
`MalformedScore` rejection. -/
theorem c8_counterexample :
    findPattern [partZeroNotes] [pnA] = .ok ⟨[], []⟩ := by decide

/-- C9 counterexample: a matched note without a `voice` element reports
`measureNoteNumber = 0` (the JS `indexOf` returned `-1`: the note itself is
filtered out of its siblings), while its 0-based rank among same-voice
(defaulted) note-or-rest siblings is 0, i.e. the reported 1-based value
should have been 1. -/
theorem c9_counterexample :
    (findPattern [mkPart1 [noteA]] [pnA]).map
        (fun r => r.exactPatternOccurrences.map fun o =>
          o.notes.map fun x => x.measureNoteNumber) =
      .ok [[0]] ∧
    specPositionInMeasure [noteA] 0 = 0 ∧
    ((0 : Int) ≠ (specPositionInMeasure [noteA] 0 : Int) + 1) := by decide

/-- C10 counterexample: a two-note exact occurrence inside one part stamps
the staff coordinate value 1 on both of its notes — `staffCoordinate`
values do repeat within the same part. -/
theorem c10_counterexample :
    (findPattern [mkPart1 [noteA, noteB]] [pnA, pnB]).map
        (fun r => r.exactPatternOccurrences.map fun o => o.notes.map fun x => x.staff) =
      .ok [[1, 1]] := by decide

/-- C6: the module-global `staffVoicesNumbers` table survives the first
`findPattern` invocation, and a second, identical invocation on the same
document and pattern returns a different result set (the first note's
`staffVoice` ordinal changes from 1 to 2 once the table is fully
populated). -/
theorem c6_global_table_leak :
    (runTwice docC6 [pnA]).map (fun p => decide (p.1 = p.2)) = some false := by decide

/-! ## Claim theorems -/

/-- C2 (amended): the `matchingCount` used to classify an accumulated
occurrence, `arrayIncludesCount(accumulated pitches, pattern, noteIsEqual)`,
equals the length of the longest prefix of the pattern each of whose
entries is pitch-equal to at least one accumulated note — accumulated
notes may be re-used across pattern entries (the coverage is not
one-to-one), and pattern entries past the first uncovered one are not
counted. -/
theorem c2_matchingCount_with_reuse (notes patt : List PN) :
    arrayIncludesCount notes patt noteIsEqual =
      (patt.takeWhile fun v => notes.any fun s => noteIsEqual v s).length :=
  arrayIncludesCount_eq_takeWhile notes patt noteIsEqual

/-- C7 (amended): `findPattern` does not validate the pattern.  With an
empty pattern it fails nowhere; every alignment attempt (one per non-rest
note of every scanned lane) accumulates nothing and is classified exact
(`0 - 0 === 0`), so the run returns one empty exact occurrence per
attempt, numbered sequentially, no approximate occurrences, and leaves
the voice table untouched. -/
theorem c7_empty_pattern (doc : Doc) (tbl : Table) :
    findPatternRun doc ([] : List PN) tbl =
      .ok (⟨(List.range' 1 (totalWindows doc)).map fun i => ⟨i, [], 0⟩, []⟩, tbl) := by
  unfold findPatternRun
  rw [show findPatternRaws doc [] tbl = partsLoop [] doc 1 tbl from rfl, partsLoop_empty_pat]
  dsimp only
  rw [show (doc.map fun part => ((lanesOf part).map fun lane =>
      (lane.filter fun r => isNotRest (noteAt part r)).length).sum).sum = totalWindows doc from rfl]
  rw [show ((List.replicate (totalWindows doc) (⟨[], 0, true⟩ : RawOcc)).filter
        fun r => r.exact) = List.replicate (totalWindows doc) ⟨[], 0, true⟩ from by
      rw [List.filter_replicate]; rfl,
    show ((List.replicate (totalWindows doc) (⟨[], 0, true⟩ : RawOcc)).filter
        fun r => !r.exact) = [] from by rw [List.filter_replicate]; rfl,
    numberFrom_replicate]
  rfl

/-- C8 (amended): `findPattern` performs no such validation and has no
`MalformedScore` failure: a part declaring zero notes is scanned vacuously
and the run succeeds with empty result sets, a note whose `pitch` element
lacks a `step` likewise causes no failure — its `step` is `undefined`,
which is never pitch-equal to a pattern entry with a present step, so the
note simply never matches. -/
theorem c8_no_malformed_failure :
    findPattern [partZeroNotes] [pnA] = .ok ⟨[], []⟩ ∧
    findPattern [mkPart1 [noteNoStep]] [pnA] = .ok ⟨[], []⟩ ∧
    ∀ (a b : Option Int) (s : String), noteIsEqual ⟨none, a⟩ ⟨some s, b⟩ = false :=
  ⟨by decide, by decide, fun _ _ _ => rfl⟩

/-- C9 (amended): `positionInMeasure` counts only siblings that carry an
explicit `voice` element equal to the queried voice value: for a note at
position `p` of its measure whose own `voice` element is present and equal
to `v`, `getElementIndex` returns the 0-based rank of the note among the
measure's note-or-rest entries with `voice` element `v` (same-voice rests
included, other voices and voiceless entries excluded).  (A matched note
without a `voice` element is itself filtered out and reports `-1`, as the
counterexample shows.) -/
theorem c9_positionInMeasure (ms : List NoteElem) (p v : Nat)
    (h : ((ms.get? p).bind NoteElem.voice) = some v) :
    getElementIndex ms p v =
      (((List.range p).filter fun q => hasVoiceValue ms q v).length : Int) := by
  have hp : p < ms.length := by
    rcases Option.bind_eq_some.mp h with ⟨n, hn, _⟩
    exact List.get?_eq_some.mp hn |>.1
  have hpred : hasVoiceValue ms p v = true := by
    unfold hasVoiceValue
    rw [h, beq_self_eq_true]
  have hmem : p ∈ (List.range ms.length).filter fun q => hasVoiceValue ms q v := by
    simp only [List.mem_filter, List.mem_range]
    exact ⟨hp, hpred⟩
  unfold getElementIndex jsIndexOf
  rw [if_pos (List.elem_eq_true_of_mem hmem),
    indexOf_filter_range _ _ _ hp hpred]

/-- C9 witness: the characterization applied to a concrete measure
`[rest(voice 1), note(voice 2), note(voice 1)]` for the last note: rank 1
(the same-voice rest at position 0 counts, the voice-2 note does not). -/
theorem c9_positionInMeasure_witness :
    getElementIndex [⟨true, none, none, some 1⟩, ⟨false, some ⟨some "B", none, none⟩, none, some 2⟩,
        ⟨false, some ⟨some "A", none, none⟩, none, some 1⟩] 2 1 =
      ((((List.range 2).filter fun q => hasVoiceValue [⟨true, none, none, some 1⟩,
        ⟨false, some ⟨some "B", none, none⟩, none, some 2⟩,
        ⟨false, some ⟨some "A", none, none⟩, none, some 1⟩] q 1).length : Nat) : Int) :=
  c9_positionInMeasure _ 2 1 (by decide)

/-- C3: every `PatternOccurrence` emitted in the approximate result set
satisfies `0 < matchedCount < k` and `matchedCount / k > 0.6` (the ratio
taken over the rationals; see the float note in the header). -/
theorem c3_approximate_bounds {doc : Doc} {pat : List PN} {tbl : Table}
    {res : FPResult} {tbl2 : Table}
    (h : findPatternRun doc pat tbl = .ok (res, tbl2)) :
    ∀ po ∈ res.approximatePatternOccurrences,
      0 < po.matchingCount ∧ po.matchingCount < pat.length ∧
      (0.6 : ℚ) < (po.matchingCount : ℚ) / (pat.length : ℚ) := by
  intro po hpo
  unfold findPatternRun at h
  split at h
  · cases h
  next raws tblr hraws =>
    simp only [Except.ok.injEq, Prod.mk.injEq] at h
    obtain ⟨h1, -⟩ := h
    rw [← h1] at hpo
    dsimp only at hpo
    obtain ⟨raw, hrawmem, -, hmc⟩ := mem_numberFrom _ _ hpo
    have hrmem : raw ∈ raws := (List.mem_filter.mp hrawmem).1
    have hexact : raw.exact = false := by
      have hb := (List.mem_filter.mp hrawmem).2
      simpa using hb
    obtain ⟨pOrd1, part, lane, i1, t1, occ, t2, -, -, -, hc⟩ :=
      partsLoop_raws pat doc 1 tbl raws tblr hraws raw hrmem
    obtain ⟨hlt, hne⟩ := classify_some_approx hc hexact
    have hle : raw.matchingCount ≤ pat.length := by
      rw [(classify_some hc).2]
      exact arrayIncludesCount_le _ _ _
    have h0 : 0 < pat.length := by omega
    rw [hmc]
    refine ⟨by omega, by omega, ?_⟩
    have hq : (3 : ℚ) / 5 < (raw.matchingCount : ℚ) / (pat.length : ℚ) := by
      rw [div_lt_div_iff₀ (by norm_num) (by exact_mod_cast h0)]
      exact_mod_cast (by omega : 3 * pat.length < raw.matchingCount * 5)
    calc (0.6 : ℚ) = 3 / 5 := by norm_num
    _ < _ := hq

/-- The document of the C3 witness: one part with notes `A`, `B`, `D`. -/
def docC3 : Doc := [mkPart1 [noteA, noteB, noteD]]

/-- The pattern of the C3 witness. -/
def patC3 : List PN := [pnA, pnB, pnC]

/-- The C3 witness run. -/
def runC3 : Except Unit (FPResult × Table) := findPatternRun docC3 patC3 Table.init

/-- The result of the C3 witness run. -/
def resC3 : FPResult := (runC3.toOption.getD default).1

/-- The final table of the C3 witness run. -/
def tblC3 : Table := (runC3.toOption.getD default).2

/-- The approximate occurrence of the C3 witness run. -/
def poC3 : POcc := resC3.approximatePatternOccurrences.getD 0 default

/-- C3 witness: the bounds hold at a concrete approximate occurrence
(`matchedCount = 2` against the length-3 pattern `[A, B, C]`). -/
theorem c3_approximate_bounds_witness :
    0 < poC3.matchingCount ∧ poC3.matchingCount < patC3.length ∧
    (0.6 : ℚ) < (poC3.matchingCount : ℚ) / (patC3.length : ℚ) :=
  @c3_approximate_bounds docC3 patC3 Table.init resC3 tblC3 (by decide) poC3 (by decide)

/-- C10 (amended): every occurrence note emitted while processing the part
with 1-based ordinal `pOrd` is stamped `staffCoordinate = pOrd + s - 1`,
where `s ≥ 1` is the note's own defaulted staff index; consequently, notes
of the same part on distinct staves receive distinct coordinates (notes on
a common staff share one, so values do repeat there), and across two parts
the coordinates of notes with equal staff index strictly increase with the
part ordinal. -/
theorem c10_staffCoordinate {pat : List PN} {pOrd : Nat} {part : Part} {tbl : Table}
    {raws : List RawOcc} {tbl2 : Table}
    (h : processPart pat pOrd part tbl = .ok (raws, tbl2)) :
    ∀ raw ∈ raws, ∀ x ∈ raw.notes,
      (x.staff = pOrd + x.note.staff - 1 ∧ 1 ≤ x.note.staff) ∧
      (∀ raw2 ∈ raws, ∀ y ∈ raw2.notes, y.note.staff ≠ x.note.staff → y.staff ≠ x.staff) ∧
      (∀ {pat2 : List PN} {pOrd2 : Nat} {part2 : Part} {tbl3 : Table}
          {raws2 : List RawOcc} {tbl4 : Table},
        processPart pat2 pOrd2 part2 tbl3 = .ok (raws2, tbl4) → pOrd < pOrd2 →
        ∀ raw2 ∈ raws2, ∀ y ∈ raw2.notes, y.note.staff = x.note.staff →
          x.staff < y.staff) := by
  have key : ∀ {pat' : List PN} {pOrd' : Nat} {part' : Part} {tbl' : Table}
      {raws' : List RawOcc} {tbl2' : Table},
      processPart pat' pOrd' part' tbl' = .ok (raws', tbl2') →
      ∀ raw ∈ raws', ∀ x ∈ raw.notes,
        x.staff = pOrd' + x.note.staff - 1 ∧ 1 ≤ x.note.staff := by
    intro pat' pOrd' part' tbl' raws' tbl2' h' raw hraw x hx
    obtain ⟨lane, i1, t1, occ, t2, -, ha, hc⟩ := processPart_raws h' raw hraw
    have hn := (classify_some hc).1
    rw [hn] at hx
    exact alignLoop_staffP pOrd' part' lane i1 pat' 0 [] t1 occ t2 ha
      (by intro y hy; cases hy) x hx
  intro raw hraw x hx
  obtain ⟨hx1, hx2⟩ := key h raw hraw x hx
  refine ⟨⟨hx1, hx2⟩, ?_, ?_⟩
  · intro raw2 hraw2 y hy hne
    obtain ⟨hy1, hy2⟩ := key h raw2 hraw2 y hy
    omega
  · intro pat2 pOrd2 part2 tbl3 raws2 tbl4 h2 hlt raw2 hraw2 y hy heq
    obtain ⟨hy1, hy2⟩ := key h2 raw2 hraw2 y hy
    omega

/-- The C10 witness run: processing the part of the C10 counterexample
document as part number 1. -/
def procC10 : Except Unit (List RawOcc × Table) :=
  processPart [pnA, pnB] 1 (mkPart1 [noteA, noteB]) Table.init

/-- Raws of the C10 witness run. -/
def rawsC10 : List RawOcc := (procC10.toOption.getD default).1

/-- Final table of the C10 witness run. -/
def tblC10 : Table := (procC10.toOption.getD default).2

/-- The single raw occurrence of the C10 witness run. -/
def rawC10 : RawOcc := rawsC10.getD 0 default

/-- Its first note. -/
def nocC10 : NoteOcc := rawC10.notes.getD 0 default

/-- C10 witness: the coordinate formula holds at a concrete emitted note. -/
theorem c10_staffCoordinate_witness :
    nocC10.staff = 1 + nocC10.note.staff - 1 ∧ 1 ≤ nocC10.note.staff :=
  (@c10_staffCoordinate [pnA, pnB] 1 (mkPart1 [noteA, noteB]) Table.init rawsC10 tblC10
    (by decide) rawC10 (by decide) nocC10 (by decide)).1

/-- C4 (amended): the spec's rest-exclusion holds only for parts whose
declared staff count exceeds 1: there every scanned lane is built from the
part's rest-filtered notes, so lanes contain no rests and the candidate
`lane[i + j]` examined for pattern index `j` is exactly the `(i + j)`-th
non-rest note of the lane.  (In single-staff parts the lane keeps its
rests and the candidate is the `(i + j)`-th rest-inclusive entry, as the
counterexample shows.) -/
theorem c4_multistaff_candidates {part : Part} (hgt : 1 < staffCountVal part) :
    ∀ lane ∈ lanesOf part,
      (∀ r ∈ lane, isNotRest (noteAt part r) = true) ∧
      ∀ i j, laneCandidate lane i j = specCandidate part lane i j := by
  intro lane hl
  obtain ⟨si, vb, vi, hsi, hvi⟩ := lanesOf_provenance hl
  have hb : BucketP (fun _ _ r => isNotRest (noteAt part r) = true) (staveNotesOf part) := by
    unfold staveNotesOf
    rw [if_pos hgt]
    refine foldl_addNote_BucketP _ _ (BucketP_empty _) ?_
    intro r hr s v _ _
    exact (List.mem_filter.mp hr).2
  have hrest : ∀ r ∈ lane, isNotRest (noteAt part r) = true :=
    fun r hr => hb si vb hsi vi lane hvi r hr
  refine ⟨hrest, ?_⟩
  intro i j
  unfold laneCandidate specCandidate
  rw [List.filter_eq_self.mpr hrest]

/-- C4 witness: in the two-staff part `partC5` the lane `[⟨0, 0⟩]` is
scanned and the code's candidate coincides with the spec's rest-filtered
candidate. -/
theorem c4_multistaff_candidates_witness :
    laneCandidate [⟨0, 0⟩] 0 0 = specCandidate partC5 [⟨0, 0⟩] 0 0 :=
  (c4_multistaff_candidates (by decide) [⟨0, 0⟩] (by decide)).2 0 0

/-- Well-formedness of a part in the model: no `staff` or `voice` element
carries the value 0 (MusicXML's staff/voice numbers start at 1; a literal
`0` would be written to a negative, non-index array property in JS, which
this embedding does not represent). -/
def PartWF (part : Part) : Prop :=
  ∀ r ∈ partRefs part, (noteAt part r).staff ≠ some 0 ∧ (noteAt part r).voice ≠ some 0

/-- C5 (amended): in a part with declared staff count above 1, each
scanned lane is homogeneous — there are `s, v ≥ 1` such that every note
of the lane is a non-rest note of the part carrying exactly the `staff`
element `s` and the `voice` element `v` — but the lanes are not a
partition of the part's non-rest notes: a note whose voice has no bucket
in its already-registered staff is dropped (counterexample), as is any
note lacking an explicit staff or voice element. -/
theorem c5_lane_partition {part : Part} (hgt : 1 < staffCountVal part) (hwf : PartWF part) :
    ∀ lane ∈ lanesOf part, ∃ s v, 1 ≤ s ∧ 1 ≤ v ∧
      ∀ r ∈ lane, r ∈ partRefs part ∧ isNotRest (noteAt part r) = true ∧
        (noteAt part r).staff = some s ∧ (noteAt part r).voice = some v := by
  intro lane hl
  obtain ⟨si, vb, vi, hsi, hvi⟩ := lanesOf_provenance hl
  have hb : BucketP (fun si vi r => r ∈ partRefs part ∧ isNotRest (noteAt part r) = true ∧
      (noteAt part r).staff = some (si + 1) ∧ (noteAt part r).voice = some (vi + 1))
      (staveNotesOf part) := by
    unfold staveNotesOf
    rw [if_pos hgt]
    refine foldl_addNote_BucketP _ _ (BucketP_empty _) ?_
    intro r hr s v hs hv
    have hmem := List.mem_filter.mp hr
    have hwfr := hwf r hmem.1
    have hs1 : 1 ≤ s := by
      rcases Nat.eq_zero_or_pos s with rfl | h1
      · exact absurd hs hwfr.1
      · exact h1
    have hv1 : 1 ≤ v := by
      rcases Nat.eq_zero_or_pos v with rfl | h1
      · exact absurd hv hwfr.2
      · exact h1
    refine ⟨hmem.1, hmem.2, ?_, ?_⟩
    · rw [hs]; congr 1; omega
    · rw [hv]; congr 1; omega
  exact ⟨si + 1, vi + 1, by omega, by omega,
    fun r hr => hb si vb hsi vi lane hvi r hr⟩

/-- C5 witness: the homogeneity statement applied to the lane the
two-staff part `partC5` actually scans. -/
theorem c5_lane_partition_witness :
    ∃ s v, 1 ≤ s ∧ 1 ≤ v ∧
      ∀ r ∈ [(⟨0, 0⟩ : NRef)], r ∈ partRefs partC5 ∧ isNotRest (noteAt partC5 r) = true ∧
        (noteAt partC5 r).staff = some s ∧ (noteAt partC5 r).voice = some v :=
  c5_lane_partition (by decide) (by unfold PartWF; decide) [⟨0, 0⟩] (by decide)

/-- C1 (amended): for patterns whose entries are pairwise not pitch-equal,
every `PatternOccurrence` emitted in the exact result set contains exactly
`k` notes and its `j`-th note's pitch equals `pattern[j]` under pitch
equality, pointwise (`Forall₂` forces both the length and the order).
With repeated pattern pitches the property fails, as the counterexample
shows. -/
theorem c1_exact_occurrence_shape {doc : Doc} {pat : List PN} {tbl : Table}
    {res : FPResult} {tbl2 : Table}
    (hdist : pat.Pairwise fun a b => noteIsEqual a b = false)
    (h : findPatternRun doc pat tbl = .ok (res, tbl2)) :
    ∀ po ∈ res.exactPatternOccurrences,
      po.notes.length = pat.length ∧
      List.Forall₂ (fun x p => noteIsEqual x p = true)
        (po.notes.map fun x => x.note.pn) pat := by
  intro po hpo
  unfold findPatternRun at h
  split at h
  · cases h
  next raws tblr hraws =>
    simp only [Except.ok.injEq, Prod.mk.injEq] at h
    obtain ⟨h1, -⟩ := h
    rw [← h1] at hpo
    dsimp only at hpo
    obtain ⟨raw, hrawmem, hn, -⟩ := mem_numberFrom _ _ hpo
    have hrmem : raw ∈ raws := (List.mem_filter.mp hrawmem).1
    have hexact : raw.exact = true := by
      have hf := (List.mem_filter.mp hrawmem).2
      simpa using hf
    obtain ⟨pOrd1, part, lane, i1, t1, occ, t2, -, -, halign, hcl⟩ :=
      partsLoop_raws pat doc 1 tbl raws tblr hraws raw hrmem
    have hnotes : raw.notes = occ := (classify_some hcl).1
    have hmc : arrayIncludesCount (occ.map fun o => o.note.pn) pat noteIsEqual
        = pat.length := by
      rw [← (classify_some hcl).2]
      exact classify_some_exact hcl hexact
    have hinit : AlignedAcc pat 0 [] :=
      ⟨fun p hp => absurd hp (List.not_mem_nil p), fun hd hhd => by simp at hhd,
        List.chain'_nil⟩
    obtain ⟨zp2, hocc, hinv⟩ := alignLoop_aligned pOrd1 part lane i1 pat pat 0 [] t1 occ t2
      (List.drop_zero pat).symm hinit halign
    have hforall := @aligned_exact_forall₂ pat zp2 (occ.map fun o => o.note.pn)
      (by rw [hocc]) hdist hinv hmc
    constructor
    · have hlen := hforall.length_eq
      rw [hn, hnotes]
      simpa using hlen
    · rw [hn, hnotes]
      exact hforall

/-- The document of the C1 witness: one part with notes `A`, `B`. -/
def docC1 : Doc := [mkPart1 [noteA, noteB]]

/-- The distinct-pitch pattern of the C1 witness. -/
def patC1 : List PN := [pnA, pnB]

/-- The C1 witness run. -/
def runC1 : Except Unit (FPResult × Table) := findPatternRun docC1 patC1 Table.init

/-- The result of the C1 witness run. -/
def resC1 : FPResult := (runC1.toOption.getD default).1

/-- The final table of the C1 witness run. -/
def tblC1 : Table := (runC1.toOption.getD default).2

/-- The exact occurrence of the C1 witness run. -/
def poC1 : POcc := resC1.exactPatternOccurrences.getD 0 default

/-- C1 witness: the amended statement applied to the concrete run on notes
`[A, B]` with the distinct-pitch pattern `[A, B]`. -/
theorem c1_exact_occurrence_shape_witness :
    poC1.notes.length = patC1.length ∧
    List.Forall₂ (fun x p => noteIsEqual x p = true)
      (poC1.notes.map fun x => x.note.pn) patC1 :=
  @c1_exact_occurrence_shape docC1 patC1 Table.init resC1 tblC1
    (by decide) (by decide) poC1 (by decide)

end NotePattern
